import Mathlib

/-!
Verification of the monorm schema layer (src/monorm/model.py) against its
specification.  The Python source is shallowly embedded: the class-definition
machinery (`ModelType.__new__`, `_parse_type_hints`, `_process_meta`,
`_hint_to_field`) becomes pure functions over an explicit description of a
class body, and the instance-level pipeline (`BaseModel.clean`,
`from_data_unchanged`, `_iter_model`) becomes functions over an explicit
record-instance state.  Code of the repository that is imported by model.py
but not present under src/ (fields.py, mongo.py, utils.py) is modelled from
the spec; every such definition carries a doc comment starting with
"Modelled from the spec".
-/

set_option autoImplicit false

deriving instance DecidableEq for Except

namespace Monorm

/-- A BSON-like runtime value: the payloads stored in a document mapping. -/
inductive Value where
  | vInt (n : Int)
  | vStr (s : String)
  | vBool (b : Bool)
  | vDoc (fields : List (String × Value))

/-- A document: an ordered mapping from keys to values, as Python dicts keep
insertion order.  This is the type of `BaseModel._data` and of the raw
keyword data handed to the constructor. -/
abbrev Data := List (String × Value)

/-- First-match association lookup: the meaning of `d.get(k)` on an ordered
mapping embedded as a list of pairs. -/
def assocFind {α : Type} (k : String) : List (String × α) → Option α
  | [] => none
  | (k₂, v) :: rest => if k = k₂ then some v else assocFind k rest

/-- Key membership, the meaning of `k in d`. -/
def containsKey {α : Type} (k : String) (l : List (String × α)) : Bool :=
  (assocFind k l).isSome

/-- Rewrite the value stored at key `k` (first occurrence) in place, the
meaning of mutating the object stored under an existing dict key. -/
def updateAssoc {α : Type} (k : String) (f : α → α) : List (String × α) → List (String × α)
  | [] => []
  | (k₂, v) :: rest => if k = k₂ then (k₂, f v) :: rest else (k₂, v) :: updateAssoc k f rest

/-- Dict item assignment `d[k] = v`: overwrite in place when `k` is present,
append otherwise. -/
def setAssoc {α : Type} (k : String) (v : α) : List (String × α) → List (String × α)
  | [] => [(k, v)]
  | (k₂, w) :: rest => if k = k₂ then (k₂, v) :: rest else (k₂, w) :: setAssoc k v rest

/-! ## The conversion/validation pipeline entry point (`BaseModel.clean`) -/

/-- Data-time failures of the pipeline: fields.py reports conversion
failures and validation failures as distinct exception classes. -/
inductive DataError where
  | conversionError (msg : String)
  | validationError (msg : String)

/-- Modelled from the spec: the object built by `EmbeddedField().init_root(cls)`
(fields.py is not under src/).  The spec describes it as the record type
wrapped as one root embedded field driving whole-document conversion and
validation; model.py only calls its `convert` and `validate` methods, so it
is embedded as a pair of such functions, left abstract. -/
structure RootField where
  convert : Data → Except DataError Data
  validate : Data → Except DataError Unit

/-- Embeds `BaseModel.clean` (model.py lines 167-177): convert unless
`bypass_conversion`, then validate the (possibly converted) data unless
`bypass_validation`, and return the data. -/
def clean (root : RootField) (data : Data)
    (bypass_conversion : Bool) (bypass_validation : Bool) : Except DataError Data := do
  let data ← if bypass_conversion then pure data else root.convert data
  let _ ← if bypass_validation then pure () else root.validate data
  pure data

/-- A record instance: the `_data` mapping plus the provenance flag.  The
flag itself is modelled from the spec (§3: "This provenance flag is the only
piece of mutable instance state outside `_data`"); the persistence wrapper
that sets and reads it (mongo.py) is not under src/. -/
structure ModelObj where
  data : Data
  fromQuery : Bool

/-- Embeds `BaseModel.__init__`: store `clean(kw, bypass_conversion,
bypass_validation)` as `_data`; provenance is constructed. -/
def newModel (root : RootField) (kw : Data)
    (bypass_conversion : Bool) (bypass_validation : Bool) : Except DataError ModelObj :=
  (clean root kw bypass_conversion bypass_validation).map
    (fun d => { data := d, fromQuery := false })

/-- Embeds `BaseModel.to_dict`: return the underlying `_data`. -/
def to_dict (m : ModelObj) : Data := m.data

/-- Embeds `BaseModel.from_data_unchanged`: build `cls(bypass_conversion=True,
bypass_validation=True)` with no keyword data, then overwrite `_data` with
the given mapping.  The materialized-from-query provenance mark is modelled
from the spec (§4.4, the factory "sets provenance = materialized-from-query";
the subclass carrying the flag lives in mongo.py, not under src/). -/
def from_data_unchanged (root : RootField) (data : Data) : Except DataError ModelObj :=
  (newModel root [] true true).map
    (fun obj => { obj with data := data, fromQuery := true })

/-- Modelled from the spec: attribute assignment on a record instance stores
the value in `_data` under the field's wire name (the descriptor `__set__`
lives in fields.py, not under src/).  It touches only `_data`, never the
provenance flag (§3: the flag is the only other piece of instance state). -/
def setattrModel (m : ModelObj) (k : String) (v : Value) : ModelObj :=
  { m with data := setAssoc k v m.data }

/-- A sequence of attribute mutations applied to a record instance. -/
def applyMutations (m : ModelObj) (muts : List (String × Value)) : ModelObj :=
  muts.foldl (fun acc kv => setattrModel acc kv.1 kv.2) m

/-- Outcome of persisting a record instance. -/
inductive SaveResult where
  | saved (doc : Data)
  | runtimeError

/-- Modelled from the spec: `Model.save` (mongo.py, not under src/).  §4.4:
"any attempt to persist an instance whose provenance is
materialized-from-query fails with a `RuntimeError`"; otherwise the
document is handed to the database. -/
def save (m : ModelObj) : SaveResult :=
  if m.fromQuery then .runtimeError else .saved m.data

/-- A root whose convert and validate both succeed trivially; used to
evaluate the pipeline at concrete inputs. -/
def idRoot : RootField :=
  { convert := fun d => .ok d, validate := fun _ => .ok () }

/-! ## Iteration over a record instance (`BaseModel.__iter__`) -/

/-- The data-model-typed view of one attribute: a primitive attribute
surfaces its stored value, an embedded attribute surfaces its sub-mapping
wrapped as a typed sub-instance. -/
inductive TypedValue where
  | raw (v : Value)
  | sub (d : Data)

/-- A record instance as seen by attribute access: its schema (attribute
names in schema order, each marked whether its field is an embedded field)
together with the raw `_data` mapping. -/
structure RecordInst where
  schemaFields : List (String × Bool)
  data : Data

/-- Modelled from the spec: the descriptor `Field.__get__` (fields.py, not
under src/) surfaces the data-model-typed value of an attribute from the
raw mapping, and an embedded field's sub-mapping surfaces as a typed
sub-instance (§4.4, §9).  `none` is an absent attribute or key. -/
def getattrTyped (inst : RecordInst) (key : String) : Option TypedValue :=
  match assocFind key inst.schemaFields with
  | none => none
  | some isEmbedded =>
    match assocFind key inst.data with
    | none => none
    | some v =>
      match isEmbedded, v with
      | true, Value.vDoc d => some (.sub d)
      | _, _ => some (.raw v)

/-- The loop of `BaseModel._iter_model`: `for key in self._data.keys():
yield getattr(self, key)`; the generator is embedded as the list of its
yielded values. -/
def iterModelKeys (inst : RecordInst) : List String → List (Option TypedValue)
  | [] => []
  | key :: rest => getattrTyped inst key :: iterModelKeys inst rest

/-- Embeds `BaseModel.__iter__` / `_iter_model` (model.py lines 185-190). -/
def iter_model (inst : RecordInst) : List (Option TypedValue) :=
  iterModelKeys inst (inst.data.map Prod.fst)

/-- Written from the spec words of C4, for comparison with `iter_model`:
iteration "yields the typed value of each attribute in schema order", by
attribute lookup. -/
def iterModelSpecOrder (inst : RecordInst) : List (Option TypedValue) :=
  inst.schemaFields.map (fun nf => getattrTyped inst nf.1)

/-- A record instance (such as one materialized unchanged from a query)
whose raw mapping lists its keys in the reverse of schema order. -/
def iterCounterInst : RecordInst :=
  { schemaFields := [("a", false), ("b", false)],
    data := [("b", Value.vStr "second"), ("a", Value.vStr "first")] }

/-- A record instance with an embedded attribute, used as witness input. -/
def iterEmbedInst : RecordInst :=
  { schemaFields := [("user", true)],
    data := [("user", Value.vDoc [("first_name", Value.vStr "Foo")])] }

/-! ## Type-hint to field inference (`_hint_to_field`, `hint_field_map`) -/

/-- The shape of a field object, written as the constructor that would build
it: the ten field classes of `hint_field_map` plus the two composite
constructions `EmbeddedField(model)` and `ArrayField(element_field)`. -/
inductive FieldK where
  | stringField
  | intField
  | floatField
  | booleanField
  | bytesField
  | dictField
  | listField
  | dateTimeField
  | objectIdField
  | anyField
  | embeddedField (model : String)
  | arrayField (elem : FieldK)
  deriving DecidableEq

/-- A Python type annotation as far as `_hint_to_field` inspects it: the ten
keys of `hint_field_map`, an `EmbeddedModel` subclass, a subscripted
generic sequence `List[arg]` (a bare `typing.List` carries the unbound
type variable `T` as its argument, so it is `hListOf (hTypeVar "T")`), a
type variable, or any other object. -/
inductive PyHint where
  | hStr
  | hInt
  | hFloat
  | hBool
  | hBytes
  | hDict
  | hList
  | hDatetime
  | hObjectId
  | hAny
  | hEmbedded (model : String)
  | hListOf (arg : PyHint)
  | hTypeVar (tvName : String)
  | hUnknown (clsName : String)
  deriving DecidableEq

/-- Python's `str()` of a hint, as far as `_hint_to_field` compares it: a
type variable named `n` displays as `~n`; nothing else displays as a `~`
string. -/
def strHint : PyHint → String
  | .hTypeVar n => "~" ++ n
  | .hStr => "class str"
  | .hInt => "class int"
  | .hFloat => "class float"
  | .hBool => "class bool"
  | .hBytes => "class bytes"
  | .hDict => "class dict"
  | .hList => "class list"
  | .hDatetime => "class datetime"
  | .hObjectId => "class ObjectId"
  | .hAny => "typing.Any"
  | .hEmbedded m => "class " ++ m
  | .hListOf _ => "typing.List[...]"
  | .hUnknown m => "class " ++ m

/-- Embeds `hint_field_map` (model.py lines 16-27): the fixed primitive
correspondence table, each entry paired with the field its constructor
builds. -/
def hint_field_map : List (PyHint × FieldK) :=
  [(.hStr, .stringField),
   (.hInt, .intField),
   (.hFloat, .floatField),
   (.hBool, .booleanField),
   (.hBytes, .bytesField),
   (.hDict, .dictField),
   (.hList, .listField),
   (.hDatetime, .dateTimeField),
   (.hObjectId, .objectIdField),
   (.hAny, .anyField)]

/-- Dictionary lookup `hint_field_map[hint_type]` guarded by
`hint_type in hint_field_map`. -/
def findInMap (h : PyHint) : List (PyHint × FieldK) → Option FieldK
  | [] => none
  | (k, f) :: rest => if h = k then some f else findInMap h rest

/-- Definition-time failures raised while a record type is being defined:
`_hint_to_field` raises for an annotation it cannot convert (a `TypeError`
in the source; an unsubscripted type variable can also surface the failure
as an attribute error, which this embedding does not distinguish), and
`_process_meta` raises a `ValueError` naming an unknown field. -/
inductive SchemaDefError where
  | typeError (hint : PyHint)
  | valueError (name : String)
  deriving DecidableEq

/-- Embeds `_hint_to_field` (model.py lines 30-43): consult the primitive
table; else an `EmbeddedModel` subclass becomes an embedded field; else a
generic-sequence annotation whose argument displays as `~T` becomes an
untyped `ListField()` and any other argument recurses into
`ArrayField(_hint_to_field(arg))`; anything else raises. -/
def hint_to_field (hint_type : PyHint) : Except SchemaDefError FieldK :=
  match findInMap hint_type hint_field_map with
  | some f => .ok f
  | none =>
    match hint_type with
    | .hEmbedded m => .ok (.embeddedField m)
    | .hListOf arg =>
      if strHint arg = "~T" then .ok .listField
      else (hint_to_field arg).map .arrayField
    | _ => .error (.typeError hint_type)

/-! ## Field objects and the Meta configuration block -/

/-- The object stored by `field.default = getattr(cls, name)`: a plain
class-body value (a literal or a zero-argument producer, kept as an opaque
token), or — in the degenerate case where the annotated name is also bound
to an explicit Field object — that field object itself, recorded here only
as a marker. -/
inductive DefaultVal where
  | val (token : String)
  | fieldObj
  deriving DecidableEq

/-- Embeds a `Field` object (its class lives in fields.py) as far as
model.py touches it: the constructor shape plus the attributes `name`,
`required`, `default`, `converter` and `validator` that `ModelType`
assigns.  Converters and validators are opaque tokens. -/
structure MField where
  kind : FieldK
  name : Option String
  required : Bool
  default : Option DefaultVal
  converter : Option String
  validator : Option String
  deriving DecidableEq

/-- A freshly constructed field object, as `_hint_to_field` builds them:
no name, not required, no default, no user converter or validator. -/
def freshField (k : FieldK) : MField :=
  { kind := k, name := none, required := false,
    default := none, converter := none, validator := none }

/-- Embeds the `Meta` inner class read by `_process_meta`: aliases (the
source also accepts a dict, which it first normalizes into this list of
pairs), required names, converters and validators.  Converter and
validator functions are opaque tokens. -/
structure MetaBlock where
  aliases : List (String × String)
  required : List String
  converters : List (String × String)
  validators : List (String × String)

/-- A `Meta` block with no overrides, the meaning of a missing `Meta`. -/
def emptyMeta : MetaBlock :=
  { aliases := [], required := [], converters := [], validators := [] }

/-- The first loop of `_process_meta`: `for field_name, alias in aliases:
ensure_field_exist(field_name); fields[field_name].name = alias`.  The key
set of `fields` is invariant under the value mutations, so checking
membership in the current list agrees with the source's check against the
dict collected up front. -/
def applyAliases (fields : List (String × MField)) :
    List (String × String) → Except SchemaDefError (List (String × MField))
  | [] => .ok fields
  | (field_name, wireName) :: rest =>
    if containsKey field_name fields then
      applyAliases (updateAssoc field_name (fun f => { f with name := some wireName }) fields) rest
    else .error (.valueError field_name)

/-- The second loop of `_process_meta`: mark each listed field required. -/
def applyRequired (fields : List (String × MField)) :
    List String → Except SchemaDefError (List (String × MField))
  | [] => .ok fields
  | field_name :: rest =>
    if containsKey field_name fields then
      applyRequired (updateAssoc field_name (fun f => { f with required := true }) fields) rest
    else .error (.valueError field_name)

/-- The third loop of `_process_meta`: install each user converter. -/
def applyConverters (fields : List (String × MField)) :
    List (String × String) → Except SchemaDefError (List (String × MField))
  | [] => .ok fields
  | (field_name, c) :: rest =>
    if containsKey field_name fields then
      applyConverters (updateAssoc field_name (fun f => { f with converter := some c }) fields) rest
    else .error (.valueError field_name)

/-- The fourth loop of `_process_meta`: install each user validator. -/
def applyValidators (fields : List (String × MField)) :
    List (String × String) → Except SchemaDefError (List (String × MField))
  | [] => .ok fields
  | (field_name, v) :: rest =>
    if containsKey field_name fields then
      applyValidators (updateAssoc field_name (fun f => { f with validator := some v }) fields) rest
    else .error (.valueError field_name)

/-- Embeds `ModelType._process_meta` (model.py lines 90-119): the four
override loops run in the source's textual order — aliases, required,
converters, validators — each raising `ValueError` on a name that is not a
collected field. -/
def process_meta (fields : List (String × MField)) (meta : MetaBlock) :
    Except SchemaDefError (List (String × MField)) := do
  let fields ← applyAliases fields meta.aliases
  let fields ← applyRequired fields meta.required
  let fields ← applyConverters fields meta.converters
  let fields ← applyValidators fields meta.validators
  pure fields

/-- Whether every field name referenced anywhere in the `Meta` block is a
collected field of the type. -/
def metaNamesDefined (fields : List (String × MField)) (meta : MetaBlock) : Bool :=
  meta.aliases.all (fun p => containsKey p.1 fields) &&
  meta.required.all (fun n => containsKey n fields) &&
  meta.converters.all (fun p => containsKey p.1 fields) &&
  meta.validators.all (fun p => containsKey p.1 fields)

/-- The correspondence table as the (amended) claim C2 enumerates it: the
ten primitive kinds, embedded-model classes, a generic sequence whose
element argument displays as `~T` (in particular a bare `typing.List`),
and a generic sequence whose element is itself covered. -/
inductive C2Covered : PyHint → Prop where
  | pStr : C2Covered .hStr
  | pInt : C2Covered .hInt
  | pFloat : C2Covered .hFloat
  | pBool : C2Covered .hBool
  | pBytes : C2Covered .hBytes
  | pDict : C2Covered .hDict
  | pList : C2Covered .hList
  | pDatetime : C2Covered .hDatetime
  | pObjectId : C2Covered .hObjectId
  | pAny : C2Covered .hAny
  | pEmbedded (m : String) : C2Covered (.hEmbedded m)
  | pListTVarT (arg : PyHint) : strHint arg = "~T" → C2Covered (.hListOf arg)
  | pListOf (arg : PyHint) : C2Covered arg → C2Covered (.hListOf arg)

/-! ## The metaclass pipeline (`ModelType.__new__`, `_parse_type_hints`) -/

/-- One attribute of a class body: an explicit Field object, the literal
`None`, or any other plain value (a literal or a zero-argument producer),
kept as an opaque token. -/
inductive ClassAttr where
  | fieldAttr (f : MField)
  | pyNone
  | pyValue (token : String)
  deriving DecidableEq

/-- A record-type declaration as `ModelType` sees it: the class body
namespace in declaration order, the body's own `__annotations__` in
declaration order, the type hints inherited from base classes (as
`typing.get_type_hints` merges them in), and the `Meta` block. -/
structure ClassBody where
  attrs : List (String × ClassAttr)
  annots : List (String × PyHint)
  parentHints : List (String × PyHint)
  meta : MetaBlock

/-- The loop of `ModelType.__new__` (model.py lines 54-58) restricted to
the Field-valued attributes: give each explicit field whose `name` is
unset its attribute name.  The returned keys, in declaration order, are
`_field_order` right after `__new__`. -/
def collectExplicitFields : List (String × ClassAttr) → List (String × MField)
  | [] => []
  | (key, .fieldAttr f) :: rest =>
    (key, match f.name with
          | none => { f with name := some key }
          | some _ => f) :: collectExplicitFields rest
  | _ :: rest => collectExplicitFields rest

/-- Python dict update `base.update(upd)`: overriding keys keep their
first position, new keys are appended. -/
def dictUpdate {α : Type} (base upd : List (String × α)) : List (String × α) :=
  base.map (fun kv => (kv.1, (assocFind kv.1 upd).getD kv.2)) ++
    upd.filter (fun kv => !(containsKey kv.1 base))

/-- Embeds `typing.get_type_hints(cls)`: the hints of the base classes
first, updated by the class's own annotations. -/
def getTypeHints (body : ClassBody) : List (String × PyHint) :=
  dictUpdate body.parentHints body.annots

/-- Lines 81-86 of `_parse_type_hints`, building one annotation-derived
field: the fresh field from `_hint_to_field` gets the attribute name, and
a class-level value that is not `None` becomes its default (`if
cls.__dict__.get(name) is not None: field.default = getattr(cls, name)`). -/
def builtAnnotationField (body : ClassBody) (n : String) (k : FieldK) : MField :=
  { freshField k with
    name := some n,
    default :=
      match assocFind n body.attrs with
      | some (.pyValue v) => some (.val v)
      | some (.fieldAttr _) => some .fieldObj
      | some .pyNone => none
      | none => none }

/-- The loop `for name, hint in types.items()` of `_parse_type_hints`
(model.py lines 76-88): skip hints of parent classes (`if name not in
annotations: continue`), build the field (a conversion failure aborts the
class definition), record the name in `_field_order`, and `setattr` the
field into the class namespace. -/
def parseLoop (body : ClassBody) (fields : List (String × MField))
    (field_order : List String) :
    List (String × PyHint) → Except SchemaDefError (List (String × MField) × List String)
  | [] => .ok (fields, field_order)
  | (n, hint) :: rest =>
    if containsKey n body.annots then
      match hint_to_field hint with
      | .error e => .error e
      | .ok k =>
        parseLoop body (setAssoc n (builtAnnotationField body n k) fields)
          (field_order ++ [n]) rest
    else parseLoop body fields field_order rest

/-- The result of defining a record type: the collected fields (the
Field-valued attributes of the class namespace, in namespace order), the
`_field_order` list, and whether the mixing warning was emitted. -/
structure BuiltClass where
  fields : List (String × MField)
  field_order : List String
  warned : Bool

/-- Embeds `ModelType._parse_type_hints` (model.py lines 64-88) on top of
`ModelType.__new__`: return at once when the class body has no
annotations of its own; otherwise warn when explicit fields were already
collected, then process `get_type_hints(cls)` filtered to the body's own
annotations. -/
def parse_type_hints (body : ClassBody) : Except SchemaDefError BuiltClass :=
  let fields₀ := collectExplicitFields body.attrs
  let order₀ := fields₀.map Prod.fst
  if body.annots.isEmpty then
    .ok { fields := fields₀, field_order := order₀, warned := false }
  else
    (parseLoop body fields₀ order₀ (getTypeHints body)).map
      (fun fo => { fields := fo.1, field_order := fo.2, warned := !order₀.isEmpty })

/-- Embeds `ModelType.__init__` (model.py lines 121-126) for a model class
(one without its own `_no_parse_hints`): `_parse_type_hints`, then
`_process_meta` over the Field-valued attributes of the class namespace. -/
def defineModel (body : ClassBody) : Except SchemaDefError BuiltClass :=
  (parse_type_hints body).bind (fun built =>
    (process_meta built.fields body.meta).map
      (fun flds => { built with fields := flds }))

/-- Whether a field object carries a nonempty name. -/
def nameOk (fld : MField) : Bool :=
  match fld.name with
  | some s => !s.isEmpty
  | none => false

/-- Whether every collected field carries a nonempty name. -/
def fieldNamesNonEmpty (fields : List (String × MField)) : Bool :=
  fields.all (fun kv => nameOk kv.2)

/-- A class body mixing one explicit field with one annotated attribute,
on top of a base class with its own (class-configuration) hints. -/
def mixedBody : ClassBody :=
  { attrs := [("a", .fieldAttr (freshField .stringField))],
    annots := [("b", .hInt)],
    parentHints := [("warn_extra_data", .hBool)],
    meta := emptyMeta }

/-- A class body with two annotated attributes, one with class-level value
`None` and one with a non-`None` class-level value. -/
def defaultsBody : ClassBody :=
  { attrs := [("visible", .pyValue "True"), ("created_on", .pyNone)],
    annots := [("visible", .hBool), ("created_on", .hDatetime)],
    parentHints := [],
    meta := emptyMeta }

/-- The schema that defining `mixedBody` builds, used as witness input. -/
def mixedBuilt : BuiltClass :=
  { fields :=
      [("a", { kind := .stringField, name := some "a", required := false,
               default := none, converter := none, validator := none }),
       ("b", { kind := .intField, name := some "b", required := false,
               default := none, converter := none, validator := none })],
    field_order := ["a", "b"],
    warned := true }

/-- Well-formedness of a class body for the name invariant: attribute names
are nonempty (Python identifiers always are) and any preset name on an
explicit field is nonempty. -/
def attrsNamesOk (attrs : List (String × ClassAttr)) : Bool :=
  attrs.all (fun kv => !kv.1.isEmpty &&
    (match kv.2 with
     | .fieldAttr f =>
       (match f.name with
        | none => true
        | some s => !s.isEmpty)
     | _ => true))

/-! ## Index reconciliation -/

/-- The options of an index, as far as the reconciler compares and creates
them. -/
structure IndexOptions where
  unique : Bool
  sparse : Bool
  expireAfterSeconds : Option Nat
  deriving DecidableEq

/-- A canonical index triple: name, ordered key list, options.  A direction
is `1` or `-1`. -/
structure IndexInfo where
  iname : String
  key : List (String × Int)
  options : IndexOptions
  deriving DecidableEq

/-- One index operation delegated to the database client. -/
inductive IndexAction where
  | dropIndex (iname : String)
  | createIndex (ix : IndexInfo)
  deriving DecidableEq

/-- Modelled from the spec: the index reconciler lives in the mongo binding,
which is not under src/ (only its tests are).  §4.5: drop each existing
index whose name is not in the declared set; then, for each declared index,
create it when absent from the existing metadata, drop and recreate it when
present with a different TTL option (TTL changes cannot be applied in
place), and leave it untouched otherwise.  Drops for undeclared names come
first (§4.5 ordering policy).  The implicit primary-key index is excluded
from `existing` by the caller. -/
def indexStep (existing : List IndexInfo) (d : IndexInfo) : List IndexAction :=
  match existing.find? (fun e => e.iname == d.iname) with
  | none => [.createIndex d]
  | some e =>
    if e.options.expireAfterSeconds ≠ d.options.expireAfterSeconds then
      [.dropIndex d.iname, .createIndex d]
    else []

/-- Modelled from the spec, together with `indexStep` above: the whole
reconciliation pass — the undeclared-name drops, then the per-declared-index
actions. -/
def reconcileIndexes (declared existing : List IndexInfo) : List IndexAction :=
  (existing.filter (fun e => !(declared.any (fun d => d.iname == e.iname)))).map
      (fun e => .dropIndex e.iname) ++
    declared.flatMap (indexStep existing)

/-- Plain ascending index options, no TTL. -/
def plainOptions : IndexOptions :=
  { unique := false, sparse := false, expireAfterSeconds := none }

/-- The pre-existing index `a_1` of the drop test. -/
def ixA1 : IndexInfo := { iname := "a_1", key := [("a", 1)], options := plainOptions }

/-- The declared index `b_1` of the drop test. -/
def ixB1 : IndexInfo := { iname := "b_1", key := [("b", 1)], options := plainOptions }

/-- The pre-existing TTL index with `expireAfterSeconds=2400`. -/
def ixTTLold : IndexInfo :=
  { iname := "expires_at_1", key := [("expires_at", 1)],
    options := { unique := false, sparse := false, expireAfterSeconds := some 2400 } }

/-- The declared TTL index with `expireAfterSeconds=3600`. -/
def ixTTLnew : IndexInfo :=
  { iname := "expires_at_1", key := [("expires_at", 1)],
    options := { unique := false, sparse := false, expireAfterSeconds := some 3600 } }

end Monorm

namespace Monorm

/-- C1: for every record type (every root behavior) and every raw mapping,
`clean` applies conversion exactly when `bypass_conversion` is false and
validation exactly when `bypass_validation` is false; with both switches
true it returns the input unchanged and raises no error. -/
theorem clean_bypass_switches (root : RootField) (data : Data) :
    clean root data true true = .ok data ∧
    clean root data false true = root.convert data ∧
    clean root data true false = (root.validate data).map (fun _ => data) ∧
    clean root data false false =
      (root.convert data).bind (fun d => (root.validate d).map (fun _ => d)) := by
  refine ⟨rfl, ?_, ?_, ?_⟩
  · cases h : root.convert data <;>
      simp [clean, h, Bind.bind, Except.bind, Pure.pure, Except.pure]
  · cases h : root.validate data <;>
      simp [clean, h, Bind.bind, Except.bind, Pure.pure, Except.pure, Except.map]
  · cases h : root.convert data with
    | error e =>
      simp [clean, h, Bind.bind, Except.bind, Pure.pure, Except.pure]
    | ok d =>
      cases h₂ : root.validate d <;>
        simp [clean, h, h₂, Bind.bind, Except.bind, Pure.pure, Except.pure, Except.map]

/-- C7: the unchanged-materialization factory never invokes conversion or
validation on the mapping (the result is the same for every root behavior)
and the stored data, as returned by `to_dict`, is exactly the input. -/
theorem from_data_unchanged_exact (root root₂ : RootField) (d : Data) :
    from_data_unchanged root d = .ok { data := d, fromQuery := true } ∧
    to_dict { data := d, fromQuery := true } = d ∧
    from_data_unchanged root d = from_data_unchanged root₂ d := by
  exact ⟨rfl, rfl, rfl⟩

theorem applyMutations_fromQuery (m : ModelObj) (muts : List (String × Value)) :
    (applyMutations m muts).fromQuery = m.fromQuery := by
  induction muts generalizing m with
  | nil => rfl
  | cons kv rest ih =>
    show (applyMutations (setattrModel m kv.1 kv.2) rest).fromQuery = _
    rw [ih]
    rfl

/-- C8: an instance produced by the unchanged-materialization factory fails
any persistence attempt with `RuntimeError`, regardless of the attribute
mutations performed on it after materialization. -/
theorem query_materialized_save_fails (root : RootField) (d : Data) (obj : ModelObj)
    (h : from_data_unchanged root d = .ok obj) (muts : List (String × Value)) :
    save (applyMutations obj muts) = .runtimeError := by
  have hobj : Except.ok { data := d, fromQuery := true } = Except.ok obj := h
  cases hobj
  show save (applyMutations { data := d, fromQuery := true } muts) = _
  unfold save
  rw [applyMutations_fromQuery]
  rfl

/-- C8 witness: a concrete query-materialized instance, mutated afterwards,
still fails to save. -/
theorem query_materialized_save_fails_witness :
    save (applyMutations { data := [("title", Value.vStr "t")], fromQuery := true }
      [("title", Value.vStr "foobar")]) = .runtimeError :=
  query_materialized_save_fails idRoot [("title", Value.vStr "t")] _ rfl _

theorem iterModelKeys_map (inst : RecordInst) (l : List (String × Value)) :
    iterModelKeys inst (l.map Prod.fst) = l.map (fun kv => getattrTyped inst kv.1) := by
  induction l with
  | nil => rfl
  | cons kv rest ih => simp [iterModelKeys, ih]

/-- C4 counterexample: on an instance whose raw mapping lists keys in the
reverse of schema order, `_iter_model` yields the values in raw-mapping
order, so the claimed schema-order iteration is violated. -/
theorem iter_model_raw_order_counterexample :
    iter_model iterCounterInst =
      [some (TypedValue.raw (Value.vStr "second")), some (TypedValue.raw (Value.vStr "first"))] ∧
    iterModelSpecOrder iterCounterInst =
      [some (TypedValue.raw (Value.vStr "first")), some (TypedValue.raw (Value.vStr "second"))] ∧
    iter_model iterCounterInst ≠ iterModelSpecOrder iterCounterInst := by
  refine ⟨rfl, rfl, fun h => ?_⟩
  have h₂ : ([some (TypedValue.raw (Value.vStr "second")),
      some (TypedValue.raw (Value.vStr "first"))] : List (Option TypedValue)) =
      [some (TypedValue.raw (Value.vStr "first")),
        some (TypedValue.raw (Value.vStr "second"))] := h
  simp at h₂

/-- C4 amended: iterating a record instance yields, by attribute lookup, one
value per key of the underlying raw mapping, in the raw mapping's key order
(not schema order); an embedded attribute's sub-mapping is yielded as a
typed sub-instance. -/
theorem iter_model_yields_data_order (inst : RecordInst) :
    iter_model inst = inst.data.map (fun kv => getattrTyped inst kv.1) ∧
    (∀ key d, assocFind key inst.schemaFields = some true →
      assocFind key inst.data = some (Value.vDoc d) →
      getattrTyped inst key = some (TypedValue.sub d)) := by
  constructor
  · exact iterModelKeys_map inst inst.data
  · intro key d h₁ h₂
    simp [getattrTyped, h₁, h₂]

/-- C4 witness: on a concrete instance, an embedded attribute is yielded as
a typed sub-instance. -/
theorem iter_model_yields_data_order_witness :
    getattrTyped iterEmbedInst "user" =
      some (TypedValue.sub [("first_name", Value.vStr "Foo")]) :=
  (iter_model_yields_data_order iterEmbedInst).2 "user" _ rfl rfl

theorem exceptMap_isOk {ε α β : Type} (f : α → β) (e : Except ε α) :
    (Except.map f e).isOk = e.isOk := by
  cases e <;> rfl

theorem exceptIsOk_ok {ε α : Type} (a : α) : (Except.ok a : Except ε α).isOk = true := rfl

theorem exceptIsOk_error {ε α : Type} (e : ε) :
    (Except.error e : Except ε α).isOk = false := rfl

theorem exceptBind_pure {ε α : Type} (e : Except ε α) :
    (e.bind fun a => Except.ok a) = e := by
  cases e <;> rfl

theorem hint_to_field_listOf (arg : PyHint) :
    hint_to_field (.hListOf arg) =
      if strHint arg = "~T" then .ok .listField
      else Except.map .arrayField (hint_to_field arg) := rfl

theorem hint_to_field_typeVar (n : String) :
    hint_to_field (.hTypeVar n) = .error (.typeError (.hTypeVar n)) := rfl

theorem hint_to_field_unknown (n : String) :
    hint_to_field (.hUnknown n) = .error (.typeError (.hUnknown n)) := rfl

theorem hint_to_field_isOk_iff (h : PyHint) :
    (hint_to_field h).isOk = true ↔ C2Covered h := by
  induction h with
  | hStr => exact iff_of_true rfl C2Covered.pStr
  | hInt => exact iff_of_true rfl C2Covered.pInt
  | hFloat => exact iff_of_true rfl C2Covered.pFloat
  | hBool => exact iff_of_true rfl C2Covered.pBool
  | hBytes => exact iff_of_true rfl C2Covered.pBytes
  | hDict => exact iff_of_true rfl C2Covered.pDict
  | hList => exact iff_of_true rfl C2Covered.pList
  | hDatetime => exact iff_of_true rfl C2Covered.pDatetime
  | hObjectId => exact iff_of_true rfl C2Covered.pObjectId
  | hAny => exact iff_of_true rfl C2Covered.pAny
  | hEmbedded m => exact iff_of_true rfl (C2Covered.pEmbedded m)
  | hTypeVar n =>
    rw [hint_to_field_typeVar]
    exact iff_of_false (fun hcontra => Bool.noConfusion hcontra) (fun hc => nomatch hc)
  | hUnknown n =>
    rw [hint_to_field_unknown]
    exact iff_of_false (fun hcontra => Bool.noConfusion hcontra) (fun hc => nomatch hc)
  | hListOf arg ih =>
    rw [hint_to_field_listOf]
    by_cases ht : strHint arg = "~T"
    · rw [if_pos ht]
      exact iff_of_true rfl (C2Covered.pListTVarT arg ht)
    · rw [if_neg ht, exceptMap_isOk]
      constructor
      · intro hOk
        exact C2Covered.pListOf arg (ih.mp hOk)
      · intro hc
        cases hc with
        | pListTVarT _ ht₂ => exact absurd ht₂ ht
        | pListOf _ hcov => exact ih.mpr hcov

/-- C2 counterexample: for the annotation `List[U]` with `U` an unbound type
variable not named `T`, the claim maps it to the untyped sequence field,
but `_hint_to_field` only string-compares `str(arg)` against the literal
`~T`, falls into the recursive `ArrayField` branch, and raises. -/
theorem hint_unbound_typevar_not_list_field :
    hint_to_field (.hListOf (.hTypeVar "U")) ≠ .ok .listField ∧
    (hint_to_field (.hListOf (.hTypeVar "U"))).isOk = false := by
  exact ⟨by decide, rfl⟩

/-- C2 (amended): the annotation-to-field correspondence succeeds exactly on
the table `C2Covered` enumerates — the ten primitive kinds map to their
field constructors, an embedded-model class maps to an embedded field, a
generic-sequence annotation whose element argument displays as `~T` (in
particular a bare generic sequence) maps to the untyped sequence field, and
one with any other element argument maps to an array field of that
element's field — and it raises a definition-time failure exactly when the
annotation matches none of these cases. -/
theorem hint_to_field_correspondence (h : PyHint) (m : String) :
    ((hint_to_field h).isOk = true ↔ C2Covered h) ∧
    ((∃ e, hint_to_field h = .error e) ↔ ¬ C2Covered h) ∧
    hint_to_field .hStr = .ok .stringField ∧
    hint_to_field .hInt = .ok .intField ∧
    hint_to_field .hFloat = .ok .floatField ∧
    hint_to_field .hBool = .ok .booleanField ∧
    hint_to_field .hBytes = .ok .bytesField ∧
    hint_to_field .hDict = .ok .dictField ∧
    hint_to_field .hList = .ok .listField ∧
    hint_to_field .hDatetime = .ok .dateTimeField ∧
    hint_to_field .hObjectId = .ok .objectIdField ∧
    hint_to_field .hAny = .ok .anyField ∧
    hint_to_field (.hEmbedded m) = .ok (.embeddedField m) ∧
    hint_to_field (.hListOf h) =
      (if strHint h = "~T" then .ok .listField
        else Except.map .arrayField (hint_to_field h)) := by
  refine ⟨hint_to_field_isOk_iff h, ?_, rfl, rfl, rfl, rfl, rfl, rfl, rfl, rfl, rfl, rfl, rfl, rfl⟩
  cases he : hint_to_field h with
  | error e =>
    refine iff_of_true ⟨e, rfl⟩ (fun hc => ?_)
    have hOk := (hint_to_field_isOk_iff h).mpr hc
    rw [he] at hOk
    exact Bool.noConfusion hOk
  | ok a =>
    have hcov : C2Covered h := (hint_to_field_isOk_iff h).mp (by rw [he]; rfl)
    exact iff_of_false (fun hex => nomatch hex.choose_spec) (fun hn => hn hcov)

/-- C2 witness: the correspondence applied at the concrete annotation
`List[int]`, which is covered and builds an array-of-int field. -/
theorem hint_to_field_correspondence_witness :
    C2Covered (.hListOf .hInt) ∧
    hint_to_field (.hListOf .hInt) = .ok (.arrayField .intField) :=
  ⟨(hint_to_field_correspondence (.hListOf .hInt) "M").1.mp (by decide), by decide⟩

theorem containsKey_updateAssoc {α : Type} (k k₂ : String) (f : α → α)
    (l : List (String × α)) :
    containsKey k (updateAssoc k₂ f l) = containsKey k l := by
  induction l with
  | nil => rfl
  | cons p rest ih =>
    rcases p with ⟨k₃, v⟩
    simp only [updateAssoc]
    by_cases h : k₂ = k₃
    · rw [if_pos h]
      by_cases h₂ : k = k₃ <;> simp [containsKey, assocFind, h₂]
    · rw [if_neg h]
      by_cases h₂ : k = k₃
      · simp [containsKey, assocFind, h₂]
      · simp only [containsKey, assocFind, if_neg h₂]
        exact ih

theorem applyAliases_isOk (l : List (String × String)) (fields : List (String × MField)) :
    (applyAliases fields l).isOk = l.all (fun p => containsKey p.1 fields) := by
  induction l generalizing fields with
  | nil => rfl
  | cons p rest ih =>
    rcases p with ⟨n, w⟩
    cases h : containsKey n fields with
    | false => simp [applyAliases, h, exceptIsOk_error]
    | true => simp [applyAliases, h, ih, containsKey_updateAssoc]

theorem applyRequired_isOk (l : List String) (fields : List (String × MField)) :
    (applyRequired fields l).isOk = l.all (fun n => containsKey n fields) := by
  induction l generalizing fields with
  | nil => rfl
  | cons n rest ih =>
    cases h : containsKey n fields with
    | false => simp [applyRequired, h, exceptIsOk_error]
    | true => simp [applyRequired, h, ih, containsKey_updateAssoc]

theorem applyConverters_isOk (l : List (String × String)) (fields : List (String × MField)) :
    (applyConverters fields l).isOk = l.all (fun p => containsKey p.1 fields) := by
  induction l generalizing fields with
  | nil => rfl
  | cons p rest ih =>
    rcases p with ⟨n, c⟩
    cases h : containsKey n fields with
    | false => simp [applyConverters, h, exceptIsOk_error]
    | true => simp [applyConverters, h, ih, containsKey_updateAssoc]

theorem applyValidators_isOk (l : List (String × String)) (fields : List (String × MField)) :
    (applyValidators fields l).isOk = l.all (fun p => containsKey p.1 fields) := by
  induction l generalizing fields with
  | nil => rfl
  | cons p rest ih =>
    rcases p with ⟨n, v⟩
    cases h : containsKey n fields with
    | false => simp [applyValidators, h, exceptIsOk_error]
    | true => simp [applyValidators, h, ih, containsKey_updateAssoc]

theorem applyAliases_keys (l : List (String × String)) (fields f' : List (String × MField))
    (h : applyAliases fields l = .ok f') (k : String) :
    containsKey k f' = containsKey k fields := by
  induction l generalizing fields with
  | nil => cases Except.ok.inj h; rfl
  | cons p rest ih =>
    rcases p with ⟨n, w⟩
    simp only [applyAliases] at h
    by_cases hc : containsKey n fields = true
    · rw [if_pos hc] at h
      rw [ih _ h, containsKey_updateAssoc]
    · rw [if_neg hc] at h
      exact nomatch h

theorem applyRequired_keys (l : List String) (fields f' : List (String × MField))
    (h : applyRequired fields l = .ok f') (k : String) :
    containsKey k f' = containsKey k fields := by
  induction l generalizing fields with
  | nil => cases Except.ok.inj h; rfl
  | cons n rest ih =>
    simp only [applyRequired] at h
    by_cases hc : containsKey n fields = true
    · rw [if_pos hc] at h
      rw [ih _ h, containsKey_updateAssoc]
    · rw [if_neg hc] at h
      exact nomatch h

theorem applyConverters_keys (l : List (String × String)) (fields f' : List (String × MField))
    (h : applyConverters fields l = .ok f') (k : String) :
    containsKey k f' = containsKey k fields := by
  induction l generalizing fields with
  | nil => cases Except.ok.inj h; rfl
  | cons p rest ih =>
    rcases p with ⟨n, c⟩
    simp only [applyConverters] at h
    by_cases hc : containsKey n fields = true
    · rw [if_pos hc] at h
      rw [ih _ h, containsKey_updateAssoc]
    · rw [if_neg hc] at h
      exact nomatch h

theorem process_meta_isOk (fields : List (String × MField)) (meta : MetaBlock) :
    (process_meta fields meta).isOk = metaNamesDefined fields meta := by
  unfold metaNamesDefined
  cases h₁ : applyAliases fields meta.aliases with
  | error e =>
    have ha : meta.aliases.all (fun p => containsKey p.1 fields) = false := by
      rw [← applyAliases_isOk, h₁]; rfl
    simp [process_meta, h₁, ha, Bind.bind, Except.bind, exceptIsOk_error]
  | ok f₁ =>
    have ha : meta.aliases.all (fun p => containsKey p.1 fields) = true := by
      rw [← applyAliases_isOk, h₁]; rfl
    have e₁ : ∀ k, containsKey k f₁ = containsKey k fields :=
      applyAliases_keys meta.aliases fields f₁ h₁
    cases h₂ : applyRequired f₁ meta.required with
    | error e =>
      have hbf : meta.required.all (fun n => containsKey n f₁) = false := by
        have hh := applyRequired_isOk meta.required f₁
        rw [h₂] at hh
        exact hh.symm
      have hb : meta.required.all (fun n => containsKey n fields) = false := by
        simp only [← e₁]
        exact hbf
      simp [process_meta, h₁, h₂, ha, hb, Bind.bind, Except.bind, exceptIsOk_error]
    | ok f₂ =>
      have hbf : meta.required.all (fun n => containsKey n f₁) = true := by
        rw [← applyRequired_isOk, h₂]; rfl
      have hb : meta.required.all (fun n => containsKey n fields) = true := by
        simp only [← e₁]
        exact hbf
      have e₂ : ∀ k, containsKey k f₂ = containsKey k fields := fun k =>
        (applyRequired_keys meta.required f₁ f₂ h₂ k).trans (e₁ k)
      cases h₃ : applyConverters f₂ meta.converters with
      | error e =>
        have hcf : meta.converters.all (fun p => containsKey p.1 f₂) = false := by
          have hh := applyConverters_isOk meta.converters f₂
          rw [h₃] at hh
          exact hh.symm
        have hc : meta.converters.all (fun p => containsKey p.1 fields) = false := by
          simp only [← e₂]
          exact hcf
        simp [process_meta, h₁, h₂, h₃, ha, hb, hc, Bind.bind, Except.bind, exceptIsOk_error]
      | ok f₃ =>
        have hcf : meta.converters.all (fun p => containsKey p.1 f₂) = true := by
          rw [← applyConverters_isOk, h₃]; rfl
        have hc : meta.converters.all (fun p => containsKey p.1 fields) = true := by
          simp only [← e₂]
          exact hcf
        have e₃ : ∀ k, containsKey k f₃ = containsKey k fields := fun k =>
          (applyConverters_keys meta.converters f₂ f₃ h₃ k).trans (e₂ k)
        have hv : (applyValidators f₃ meta.validators).isOk =
            meta.validators.all (fun p => containsKey p.1 fields) := by
          rw [applyValidators_isOk]
          simp only [e₃]
        simp [process_meta, h₁, h₂, h₃, ha, hb, hc, Bind.bind, Except.bind,
          Pure.pure, Except.pure, exceptBind_pure, hv]
        cases h₄ : applyValidators f₃ meta.validators with
        | error err =>
          rw [h₄] at hv
          exact hv
        | ok v =>
          rw [h₄] at hv
          exact hv

/-- C10: an annotated attribute whose class-level value is the literal
`None` (or which has no class-level value at all) gets no default on the
derived field; only a class-level value that is not `None` becomes the
field's default. -/
theorem none_default_ignored (body : ClassBody) (n : String) (k : FieldK) :
    (assocFind n body.attrs = some .pyNone →
      (builtAnnotationField body n k).default = none) ∧
    (assocFind n body.attrs = none →
      (builtAnnotationField body n k).default = none) ∧
    (∀ v, assocFind n body.attrs = some (.pyValue v) →
      (builtAnnotationField body n k).default = some (.val v)) := by
  refine ⟨fun h => ?_, fun h => ?_, fun v h => ?_⟩ <;>
    simp [builtAnnotationField, h, freshField]

/-- C10 witness: in a concrete class body, `created_on = None` yields no
default while `visible = True` yields a recorded default. -/
theorem none_default_ignored_witness :
    (builtAnnotationField defaultsBody "created_on" .dateTimeField).default = none ∧
    (builtAnnotationField defaultsBody "visible" .booleanField).default =
      some (.val "True") :=
  ⟨(none_default_ignored defaultsBody "created_on" .dateTimeField).1 rfl,
   (none_default_ignored defaultsBody "visible" .booleanField).2.2 "True" rfl⟩

theorem assocFind_mem {α : Type} (k : String) (v : α) (l : List (String × α))
    (h : assocFind k l = some v) : (k, v) ∈ l := by
  induction l with
  | nil => exact nomatch h
  | cons p rest ih =>
    rcases p with ⟨k₂, w⟩
    simp only [assocFind] at h
    by_cases hk : k = k₂
    · rw [if_pos hk] at h
      cases Option.some.inj h
      cases hk
      exact List.mem_cons_self _ _
    · rw [if_neg hk] at h
      exact List.mem_cons_of_mem _ (ih h)

theorem mem_containsKey {α : Type} (k : String) (v : α) (l : List (String × α))
    (h : (k, v) ∈ l) : containsKey k l = true := by
  induction l with
  | nil => exact nomatch h
  | cons p rest ih =>
    rcases p with ⟨k₂, w⟩
    rcases List.mem_cons.mp h with h₂ | h₂
    · cases h₂
      simp [containsKey, assocFind]
    · by_cases hk : k = k₂
      · simp [containsKey, assocFind, hk]
      · simp only [containsKey, assocFind, if_neg hk]
        exact ih h₂

theorem containsKey_exists {α : Type} (k : String) (l : List (String × α))
    (h : containsKey k l = true) : ∃ v, (k, v) ∈ l := by
  unfold containsKey at h
  cases hf : assocFind k l with
  | none => rw [hf] at h; exact nomatch h
  | some v => exact ⟨v, assocFind_mem k v l hf⟩

theorem getTypeHints_filter_own (body : ClassBody)
    (hdisj : body.annots.all (fun p => !(containsKey p.1 body.parentHints)) = true) :
    (getTypeHints body).filter (fun kv => containsKey kv.1 body.annots) = body.annots := by
  unfold getTypeHints dictUpdate
  rw [List.filter_append]
  have hdisj' : ∀ p ∈ body.annots, containsKey p.1 body.parentHints = false := by
    intro p hp
    have := List.all_eq_true.mp hdisj p hp
    simpa using this
  have h₁ : (body.parentHints.map
      (fun kv => (kv.1, (assocFind kv.1 body.annots).getD kv.2))).filter
      (fun kv => containsKey kv.1 body.annots) = [] := by
    rw [List.filter_eq_nil_iff]
    intro a ha
    rcases List.mem_map.mp ha with ⟨kv, hkv, rfl⟩
    simp only [Bool.not_eq_true]
    cases hc : containsKey kv.1 body.annots with
    | false => rfl
    | true =>
      rcases containsKey_exists _ _ hc with ⟨v, hv⟩
      have := hdisj' _ hv
      rw [mem_containsKey _ _ _ hkv] at this
      exact nomatch this
  have h₂ : body.annots.filter (fun kv => !(containsKey kv.1 body.parentHints)) =
      body.annots := by
    rw [List.filter_eq_self]
    intro a ha
    rw [hdisj' a ha]
    rfl
  rw [h₂]
  have h₃ : body.annots.filter (fun kv => containsKey kv.1 body.annots) = body.annots := by
    rw [List.filter_eq_self]
    intro a ha
    exact mem_containsKey a.1 a.2 body.annots (by simpa using ha)
  rw [h₁, h₃]
  rfl

theorem parseLoop_processed (body : ClassBody) (types : List (String × PyHint))
    (fields : List (String × MField)) (field_order : List String)
    (hall : (types.filter (fun kv => containsKey kv.1 body.annots)).all
      (fun p => (hint_to_field p.2).isOk) = true) :
    ∃ flds, parseLoop body fields field_order types =
      .ok (flds, field_order ++
        (types.filter (fun kv => containsKey kv.1 body.annots)).map Prod.fst) := by
  induction types generalizing fields field_order with
  | nil => exact ⟨fields, by simp [parseLoop]⟩
  | cons p rest ih =>
    rcases p with ⟨n, hint⟩
    cases hn : containsKey n body.annots with
    | false =>
      rw [List.filter_cons_of_neg (by simp [hn])] at hall ⊢
      rcases ih fields field_order hall with ⟨flds, hflds⟩
      exact ⟨flds, by simp only [parseLoop, hn]; simpa using hflds⟩
    | true =>
      rw [List.filter_cons_of_pos (by simp [hn])] at hall ⊢
      rw [List.all_cons] at hall
      rcases Bool.and_eq_true_iff.mp hall with ⟨hhead, hrest⟩
      cases hk : hint_to_field hint with
      | error e =>
        rw [hk] at hhead
        exact nomatch hhead
      | ok k =>
        rcases ih (setAssoc n (builtAnnotationField body n k) fields)
          (field_order ++ [n]) hrest with ⟨flds, hflds⟩
        refine ⟨flds, ?_⟩
        simp only [parseLoop, hn, hk]
        rw [hflds]
        simp

/-- C5: a record declaration that mixes explicit Field objects with type
annotations in the same body (all annotations buildable, and none
re-annotating an inherited hint) warns but succeeds, and the resulting
field order lists the explicit fields first, in declaration order,
followed by the annotation-derived fields. -/
theorem mixed_declaration_warns_and_orders (body : ClassBody)
    (hx : (collectExplicitFields body.attrs).isEmpty = false)
    (ha : body.annots.isEmpty = false)
    (hm : body.annots.all (fun p => (hint_to_field p.2).isOk) = true)
    (hdisj : body.annots.all (fun p => !(containsKey p.1 body.parentHints)) = true) :
    ∃ flds, parse_type_hints body =
      .ok { fields := flds,
            field_order := (collectExplicitFields body.attrs).map Prod.fst ++
              body.annots.map Prod.fst,
            warned := true } := by
  have hfilter := getTypeHints_filter_own body hdisj
  have hloop := parseLoop_processed body (getTypeHints body)
    (collectExplicitFields body.attrs)
    ((collectExplicitFields body.attrs).map Prod.fst)
    (by rw [hfilter]; exact hm)
  rw [hfilter] at hloop
  rcases hloop with ⟨flds, hflds⟩
  refine ⟨flds, ?_⟩
  have hwarn : ((collectExplicitFields body.attrs).map Prod.fst).isEmpty = false := by
    cases hcoll : collectExplicitFields body.attrs with
    | nil => rw [hcoll] at hx; exact nomatch hx
    | cons a l => rfl
  simp only [parse_type_hints, ha, Bool.false_eq_true, if_false]
  rw [hflds]
  simp [Except.map, hwarn]

/-- C5 witness: the concrete mixed declaration `mixedBody` warns and orders
the explicit field before the annotation-derived one. -/
theorem mixed_declaration_warns_and_orders_witness :
    ∃ flds, parse_type_hints mixedBody =
      .ok { fields := flds, field_order := ["a", "b"], warned := true } :=
  mixed_declaration_warns_and_orders mixedBody (by decide) (by decide) (by decide)
    (by decide)

theorem collect_nameOk (attrs : List (String × ClassAttr))
    (h : attrsNamesOk attrs = true) :
    fieldNamesNonEmpty (collectExplicitFields attrs) = true := by
  induction attrs with
  | nil => rfl
  | cons p rest ih =>
    rcases p with ⟨key, attr⟩
    rw [attrsNamesOk, List.all_cons] at h
    rcases Bool.and_eq_true_iff.mp h with ⟨hhead, hrest⟩
    cases attr with
    | pyNone => exact ih hrest
    | pyValue v => exact ih hrest
    | fieldAttr f =>
      rcases Bool.and_eq_true_iff.mp hhead with ⟨hkey, hname⟩
      simp only [collectExplicitFields, fieldNamesNonEmpty, List.all_cons]
      refine Bool.and_eq_true_iff.mpr ⟨?_, ih hrest⟩
      cases hfn : f.name with
      | none => simp [nameOk, hfn, hkey]
      | some s =>
        have hs : !s.isEmpty = true := by
          simpa [hfn] using hname
        simp [nameOk, hfn]
        simpa using hs

theorem fieldNamesNonEmpty_setAssoc (n : String) (fld : MField)
    (fields : List (String × MField)) (hfld : nameOk fld = true)
    (h : fieldNamesNonEmpty fields = true) :
    fieldNamesNonEmpty (setAssoc n fld fields) = true := by
  induction fields with
  | nil => simp [setAssoc, fieldNamesNonEmpty, hfld]
  | cons p rest ih =>
    rcases p with ⟨k₂, w⟩
    simp only [fieldNamesNonEmpty, List.all_cons] at h
    rcases Bool.and_eq_true_iff.mp h with ⟨hw, hrest⟩
    by_cases hk : n = k₂
    · simp [setAssoc, hk, fieldNamesNonEmpty, List.all_cons, hfld, hrest]
    · simp only [setAssoc, if_neg hk, fieldNamesNonEmpty, List.all_cons]
      exact Bool.and_eq_true_iff.mpr ⟨hw, ih hrest⟩

theorem fieldNamesNonEmpty_updateAssoc (n : String) (f : MField → MField)
    (hpred : ∀ fld, nameOk fld = true → nameOk (f fld) = true)
    (fields : List (String × MField)) (h : fieldNamesNonEmpty fields = true) :
    fieldNamesNonEmpty (updateAssoc n f fields) = true := by
  induction fields with
  | nil => rfl
  | cons p rest ih =>
    rcases p with ⟨k₂, w⟩
    simp only [fieldNamesNonEmpty, List.all_cons] at h
    rcases Bool.and_eq_true_iff.mp h with ⟨hw, hrest⟩
    by_cases hk : n = k₂
    · simp only [updateAssoc, if_pos hk, fieldNamesNonEmpty, List.all_cons]
      exact Bool.and_eq_true_iff.mpr ⟨hpred w hw, hrest⟩
    · simp only [updateAssoc, if_neg hk, fieldNamesNonEmpty, List.all_cons]
      exact Bool.and_eq_true_iff.mpr ⟨hw, ih hrest⟩

theorem parseLoop_nameOk (body : ClassBody)
    (hannots : body.annots.all (fun kv => !kv.1.isEmpty) = true)
    (types : List (String × PyHint)) (fields : List (String × MField))
    (field_order : List String) (flds : List (String × MField)) (ord : List String)
    (h : parseLoop body fields field_order types = .ok (flds, ord))
    (hf : fieldNamesNonEmpty fields = true) :
    fieldNamesNonEmpty flds = true := by
  induction types generalizing fields field_order with
  | nil =>
    have h₂ : (fields, field_order) = (flds, ord) := Except.ok.inj h
    cases h₂
    exact hf
  | cons p rest ih =>
    rcases p with ⟨n, hint⟩
    simp only [parseLoop] at h
    cases hn : containsKey n body.annots with
    | false =>
      rw [hn] at h
      simp only [Bool.false_eq_true, if_false] at h
      exact ih _ _ h hf
    | true =>
      rw [hn] at h
      simp only [if_true] at h
      cases hk : hint_to_field hint with
      | error e =>
        rw [hk] at h
        exact nomatch h
      | ok k =>
        rw [hk] at h
        have hnm : nameOk (builtAnnotationField body n k) = true := by
          rcases containsKey_exists n body.annots hn with ⟨v, hv⟩
          have hne := List.all_eq_true.mp hannots (n, v) hv
          simp only [nameOk, builtAnnotationField]
          simpa using hne
        exact ih _ _ h (fieldNamesNonEmpty_setAssoc n _ fields hnm hf)

theorem applyAliases_nameOk (l : List (String × String))
    (hl : l.all (fun p => !p.2.isEmpty) = true)
    (fields f' : List (String × MField)) (h : applyAliases fields l = .ok f')
    (hf : fieldNamesNonEmpty fields = true) :
    fieldNamesNonEmpty f' = true := by
  induction l generalizing fields with
  | nil => cases Except.ok.inj h; exact hf
  | cons p rest ih =>
    rcases p with ⟨n, w⟩
    rw [List.all_cons] at hl
    rcases Bool.and_eq_true_iff.mp hl with ⟨hw, hrest⟩
    simp only [applyAliases] at h
    by_cases hc : containsKey n fields = true
    · rw [if_pos hc] at h
      refine ih hrest _ h (fieldNamesNonEmpty_updateAssoc n _ ?_ fields hf)
      intro fld _
      simp only [nameOk]
      exact hw
    · rw [if_neg hc] at h
      exact nomatch h

theorem applyRequired_nameOk (l : List String)
    (fields f' : List (String × MField)) (h : applyRequired fields l = .ok f')
    (hf : fieldNamesNonEmpty fields = true) :
    fieldNamesNonEmpty f' = true := by
  induction l generalizing fields with
  | nil => cases Except.ok.inj h; exact hf
  | cons n rest ih =>
    simp only [applyRequired] at h
    by_cases hc : containsKey n fields = true
    · rw [if_pos hc] at h
      exact ih _ h (fieldNamesNonEmpty_updateAssoc n
        (fun f => { f with required := true }) (fun fld hfld => hfld) fields hf)
    · rw [if_neg hc] at h
      exact nomatch h

theorem applyConverters_nameOk (l : List (String × String))
    (fields f' : List (String × MField)) (h : applyConverters fields l = .ok f')
    (hf : fieldNamesNonEmpty fields = true) :
    fieldNamesNonEmpty f' = true := by
  induction l generalizing fields with
  | nil => cases Except.ok.inj h; exact hf
  | cons p rest ih =>
    rcases p with ⟨n, c⟩
    simp only [applyConverters] at h
    by_cases hc : containsKey n fields = true
    · rw [if_pos hc] at h
      exact ih _ h (fieldNamesNonEmpty_updateAssoc n
        (fun f => { f with converter := some c }) (fun fld hfld => hfld) fields hf)
    · rw [if_neg hc] at h
      exact nomatch h

theorem applyValidators_nameOk (l : List (String × String))
    (fields f' : List (String × MField)) (h : applyValidators fields l = .ok f')
    (hf : fieldNamesNonEmpty fields = true) :
    fieldNamesNonEmpty f' = true := by
  induction l generalizing fields with
  | nil => cases Except.ok.inj h; exact hf
  | cons p rest ih =>
    rcases p with ⟨n, v⟩
    simp only [applyValidators] at h
    by_cases hc : containsKey n fields = true
    · rw [if_pos hc] at h
      exact ih _ h (fieldNamesNonEmpty_updateAssoc n
        (fun f => { f with validator := some v }) (fun fld hfld => hfld) fields hf)
    · rw [if_neg hc] at h
      exact nomatch h

theorem process_meta_decomp (fields : List (String × MField)) (meta : MetaBlock) :
    process_meta fields meta =
      (applyAliases fields meta.aliases).bind (fun f₁ =>
        (applyRequired f₁ meta.required).bind (fun f₂ =>
          (applyConverters f₂ meta.converters).bind (fun f₃ =>
            applyValidators f₃ meta.validators))) := by
  cases h₁ : applyAliases fields meta.aliases with
  | error e => simp [process_meta, h₁, Bind.bind, Except.bind]
  | ok f₁ =>
    cases h₂ : applyRequired f₁ meta.required with
    | error e => simp [process_meta, h₁, h₂, Bind.bind, Except.bind]
    | ok f₂ =>
      cases h₃ : applyConverters f₂ meta.converters with
      | error e => simp [process_meta, h₁, h₂, h₃, Bind.bind, Except.bind]
      | ok f₃ =>
        cases h₄ : applyValidators f₃ meta.validators with
        | error e =>
          simp [process_meta, h₁, h₂, h₃, h₄, Bind.bind, Except.bind, Pure.pure, Except.pure]
        | ok f₄ =>
          simp [process_meta, h₁, h₂, h₃, h₄, Bind.bind, Except.bind, Pure.pure, Except.pure]

theorem process_meta_nameOk (fields f' : List (String × MField)) (meta : MetaBlock)
    (haliases : meta.aliases.all (fun p => !p.2.isEmpty) = true)
    (h : process_meta fields meta = .ok f')
    (hf : fieldNamesNonEmpty fields = true) :
    fieldNamesNonEmpty f' = true := by
  rw [process_meta_decomp fields meta] at h
  cases h₁ : applyAliases fields meta.aliases with
  | error e => rw [h₁] at h; exact nomatch h
  | ok f₁ =>
    rw [h₁] at h
    simp only [Except.bind] at h
    cases h₂ : applyRequired f₁ meta.required with
    | error e => rw [h₂] at h; simp only [Except.bind] at h; exact nomatch h
    | ok f₂ =>
      rw [h₂] at h
      simp only [Except.bind] at h
      cases h₃ : applyConverters f₂ meta.converters with
      | error e => rw [h₃] at h; simp only [Except.bind] at h; exact nomatch h
      | ok f₃ =>
        rw [h₃] at h
        simp only [Except.bind] at h
        have n₁ := applyAliases_nameOk meta.aliases haliases fields f₁ h₁ hf
        have n₂ := applyRequired_nameOk meta.required f₁ f₂ h₂ n₁
        have n₃ := applyConverters_nameOk meta.converters f₂ f₃ h₃ n₂
        exact applyValidators_nameOk meta.validators f₃ f' h n₃

theorem parse_type_hints_nameOk (body : ClassBody) (built : BuiltClass)
    (hattrs : attrsNamesOk body.attrs = true)
    (hannots : body.annots.all (fun kv => !kv.1.isEmpty) = true)
    (h : parse_type_hints body = .ok built) :
    fieldNamesNonEmpty built.fields = true := by
  have hcoll := collect_nameOk body.attrs hattrs
  by_cases he : body.annots.isEmpty = true
  · simp only [parse_type_hints, he, if_true] at h
    cases Except.ok.inj h
    exact hcoll
  · have he' : body.annots.isEmpty = false := by
      cases hb : body.annots.isEmpty
      · rfl
      · exact absurd hb he
    simp only [parse_type_hints, he', Bool.false_eq_true, if_false] at h
    cases hp : parseLoop body (collectExplicitFields body.attrs)
        ((collectExplicitFields body.attrs).map Prod.fst) (getTypeHints body) with
    | error e => rw [hp] at h; exact nomatch h
    | ok fo =>
      rw [hp] at h
      simp only [Except.map] at h
      cases Except.ok.inj h
      exact parseLoop_nameOk body hannots _ _ _ fo.1 fo.2 (by rw [hp]) hcoll

/-- C6: after schema finalization every collected field has a nonempty
name: an explicit Field whose name is unset is assigned its attribute name
at collection time, every annotation-derived field is assigned its
attribute name when built, and the Meta overrides (whose alias wire names
are nonempty) preserve the invariant. -/
theorem schema_names_nonempty (body : ClassBody) (built : BuiltClass)
    (hattrs : attrsNamesOk body.attrs = true)
    (hannots : body.annots.all (fun kv => !kv.1.isEmpty) = true)
    (haliases : body.meta.aliases.all (fun p => !p.2.isEmpty) = true)
    (hdef : defineModel body = .ok built) :
    fieldNamesNonEmpty built.fields = true ∧
    fieldNamesNonEmpty (collectExplicitFields body.attrs) = true := by
  refine ⟨?_, collect_nameOk body.attrs hattrs⟩
  unfold defineModel at hdef
  cases hp : parse_type_hints body with
  | error e => rw [hp] at hdef; exact nomatch hdef
  | ok b₁ =>
    rw [hp] at hdef
    simp only [Except.bind] at hdef
    cases hm : process_meta b₁.fields body.meta with
    | error e =>
      rw [hm] at hdef
      simp only [Except.map] at hdef
      exact nomatch hdef
    | ok flds =>
      rw [hm] at hdef
      simp only [Except.map] at hdef
      cases Except.ok.inj hdef
      exact process_meta_nameOk b₁.fields flds body.meta haliases hm
        (parse_type_hints_nameOk body b₁ hattrs hannots hp)

/-- C6 witness: the schema built from the concrete mixed declaration
carries nonempty names everywhere. -/
theorem schema_names_nonempty_witness :
    fieldNamesNonEmpty mixedBuilt.fields = true ∧
    fieldNamesNonEmpty (collectExplicitFields mixedBody.attrs) = true :=
  schema_names_nonempty mixedBody mixedBuilt (by decide) (by decide) (by decide) rfl

theorem find?_name_unique (l : List IndexInfo) (hn : (l.map IndexInfo.iname).Nodup)
    (e : IndexInfo) (hmem : e ∈ l) :
    l.find? (fun x => x.iname == e.iname) = some e := by
  induction l with
  | nil => exact nomatch hmem
  | cons a rest ih =>
    rw [List.map_cons, List.nodup_cons] at hn
    rcases hn with ⟨hna, hrest⟩
    rcases List.mem_cons.mp hmem with rfl | hmem₂
    · exact List.find?_cons_of_pos _ (by simp)
    · have hae : a.iname = e.iname → False := by
        intro hq
        exact hna (by rw [hq]; exact List.mem_map.mpr ⟨e, hmem₂, rfl⟩)
      rw [List.find?_cons_of_neg _ (by simpa using hae)]
      exact ih hrest hmem₂

/-- C9: for every declared set and existing metadata (index names unique on
both sides, primary-key index excluded), reconciliation drops each existing
index whose name is not declared, creates each declared index absent from
the existing metadata, drops and recreates a declared index whose existing
TTL option differs from the declared value, and leaves an otherwise
identical declared index untouched. -/
theorem reconcile_indexes_actions (declared existing : List IndexInfo)
    (hd : (declared.map IndexInfo.iname).Nodup)
    (he : (existing.map IndexInfo.iname).Nodup) :
    (∀ e ∈ existing, (∀ d ∈ declared, d.iname ≠ e.iname) →
      IndexAction.dropIndex e.iname ∈ reconcileIndexes declared existing) ∧
    (∀ d ∈ declared, (∀ e ∈ existing, e.iname ≠ d.iname) →
      IndexAction.createIndex d ∈ reconcileIndexes declared existing) ∧
    (∀ d ∈ declared, ∀ e ∈ existing, e.iname = d.iname →
      e.options.expireAfterSeconds ≠ d.options.expireAfterSeconds →
      IndexAction.dropIndex d.iname ∈ reconcileIndexes declared existing ∧
      IndexAction.createIndex d ∈ reconcileIndexes declared existing) ∧
    (∀ d ∈ declared, ∀ e ∈ existing, e.iname = d.iname →
      e.options.expireAfterSeconds = d.options.expireAfterSeconds →
      ¬ IndexAction.createIndex d ∈ reconcileIndexes declared existing ∧
      ¬ IndexAction.dropIndex d.iname ∈ reconcileIndexes declared existing) := by
  refine ⟨?_, ?_, ?_, ?_⟩
  · intro e hmem hnone
    have hany : (declared.any (fun d => d.iname == e.iname)) = false := by
      cases hA : declared.any (fun d => d.iname == e.iname) with
      | false => rfl
      | true =>
        rcases List.any_eq_true.mp hA with ⟨d, hdm, hdd⟩
        exact absurd (by simpa using hdd) (hnone d hdm)
    refine List.mem_append_left _ ?_
    exact List.mem_map.mpr ⟨e, List.mem_filter.mpr ⟨hmem, by rw [hany]; rfl⟩, rfl⟩
  · intro d hdm hnone
    have hfind : existing.find? (fun e => e.iname == d.iname) = none :=
      List.find?_eq_none.mpr (fun e hx => by simpa using hnone e hx)
    have hval : indexStep existing d = [IndexAction.createIndex d] := by
      unfold indexStep
      rw [hfind]
    refine List.mem_append_right _ (List.mem_flatMap.mpr ⟨d, hdm, ?_⟩)
    rw [hval]
    exact List.mem_singleton.mpr rfl
  · intro d hdm e hmem hname httl
    have hfind : existing.find? (fun x => x.iname == d.iname) = some e := by
      have hfu := find?_name_unique existing he e hmem
      rw [hname] at hfu
      exact hfu
    have hval : indexStep existing d =
        [IndexAction.dropIndex d.iname, IndexAction.createIndex d] := by
      unfold indexStep
      rw [hfind]
      show (if e.options.expireAfterSeconds ≠ d.options.expireAfterSeconds then
          [IndexAction.dropIndex d.iname, IndexAction.createIndex d]
        else []) = _
      rw [if_pos httl]
    constructor <;>
    · refine List.mem_append_right _ (List.mem_flatMap.mpr ⟨d, hdm, ?_⟩)
      rw [hval]
      simp
  · intro d hdm e hmem hname httl
    have hfind : existing.find? (fun x => x.iname == d.iname) = some e := by
      have hfu := find?_name_unique existing he e hmem
      rw [hname] at hfu
      exact hfu
    constructor
    · intro hmem₂
      rcases List.mem_append.mp hmem₂ with hl | hr
      · rcases List.mem_map.mp hl with ⟨e₂, hf, heq⟩
        exact nomatch heq
      · rcases List.mem_flatMap.mp hr with ⟨d₂, hd₂, hstep⟩
        cases hfd : existing.find? (fun x => x.iname == d₂.iname) with
        | none =>
          have hval : indexStep existing d₂ = [IndexAction.createIndex d₂] := by
            unfold indexStep
            rw [hfd]
          rw [hval] at hstep
          have heq := List.mem_singleton.mp hstep
          have hdd : d = d₂ := by injection heq
          cases hdd
          rw [hfind] at hfd
          exact nomatch hfd
        | some e₂ =>
          by_cases hc : e₂.options.expireAfterSeconds ≠ d₂.options.expireAfterSeconds
          · have hval : indexStep existing d₂ =
                [IndexAction.dropIndex d₂.iname, IndexAction.createIndex d₂] := by
              unfold indexStep
              rw [hfd]
              show (if e₂.options.expireAfterSeconds ≠ d₂.options.expireAfterSeconds then
                  [IndexAction.dropIndex d₂.iname, IndexAction.createIndex d₂]
                else []) = _
              rw [if_pos hc]
            rw [hval] at hstep
            rcases List.mem_cons.mp hstep with h₁ | h₂
            · exact nomatch h₁
            · have heq := List.mem_singleton.mp h₂
              have hdd : d = d₂ := by injection heq
              cases hdd
              rw [hfind] at hfd
              cases Option.some.inj hfd
              exact absurd httl hc
          · have hval : indexStep existing d₂ = [] := by
              unfold indexStep
              rw [hfd]
              show (if e₂.options.expireAfterSeconds ≠ d₂.options.expireAfterSeconds then
                  [IndexAction.dropIndex d₂.iname, IndexAction.createIndex d₂]
                else []) = _
              rw [if_neg hc]
            rw [hval] at hstep
            exact nomatch hstep
    · intro hmem₂
      rcases List.mem_append.mp hmem₂ with hl | hr
      · rcases List.mem_map.mp hl with ⟨e₂, hf, heq⟩
        have hnm : e₂.iname = d.iname := by injection heq
        rcases List.mem_filter.mp hf with ⟨hmem₃, hpred⟩
        have hA : declared.any (fun d₂ => d₂.iname == e₂.iname) = true :=
          List.any_eq_true.mpr ⟨d, hdm, by simp [hnm]⟩
        rw [hA] at hpred
        exact nomatch hpred
      · rcases List.mem_flatMap.mp hr with ⟨d₂, hd₂, hstep⟩
        cases hfd : existing.find? (fun x => x.iname == d₂.iname) with
        | none =>
          have hval : indexStep existing d₂ = [IndexAction.createIndex d₂] := by
            unfold indexStep
            rw [hfd]
          rw [hval] at hstep
          exact nomatch (List.mem_singleton.mp hstep)
        | some e₂ =>
          by_cases hc : e₂.options.expireAfterSeconds ≠ d₂.options.expireAfterSeconds
          · have hval : indexStep existing d₂ =
                [IndexAction.dropIndex d₂.iname, IndexAction.createIndex d₂] := by
              unfold indexStep
              rw [hfd]
              show (if e₂.options.expireAfterSeconds ≠ d₂.options.expireAfterSeconds then
                  [IndexAction.dropIndex d₂.iname, IndexAction.createIndex d₂]
                else []) = _
              rw [if_pos hc]
            rw [hval] at hstep
            rcases List.mem_cons.mp hstep with h₁ | h₂
            · have hnm : d.iname = d₂.iname := by injection h₁
              have hdd : d = d₂ := List.inj_on_of_nodup_map hd hdm hd₂ hnm
              cases hdd
              rw [hfind] at hfd
              cases Option.some.inj hfd
              exact absurd httl hc
            · exact nomatch (List.mem_singleton.mp h₂)
          · have hval : indexStep existing d₂ = [] := by
              unfold indexStep
              rw [hfd]
              show (if e₂.options.expireAfterSeconds ≠ d₂.options.expireAfterSeconds then
                  [IndexAction.dropIndex d₂.iname, IndexAction.createIndex d₂]
                else []) = _
              rw [if_neg hc]
            rw [hval] at hstep
            exact nomatch hstep

/-- C9 witness: with existing `a_1` and declared `b_1`, reconciliation
drops `a_1` and creates `b_1`; with an existing TTL of 2400 and a declared
TTL of 3600 on the same name, the index is dropped and recreated. -/
theorem reconcile_indexes_actions_witness :
    IndexAction.dropIndex "a_1" ∈ reconcileIndexes [ixB1] [ixA1] ∧
    IndexAction.createIndex ixB1 ∈ reconcileIndexes [ixB1] [ixA1] ∧
    IndexAction.dropIndex "expires_at_1" ∈ reconcileIndexes [ixTTLnew] [ixTTLold] ∧
    IndexAction.createIndex ixTTLnew ∈ reconcileIndexes [ixTTLnew] [ixTTLold] := by
  have h₁ := reconcile_indexes_actions [ixB1] [ixA1] (by decide) (by decide)
  have h₂ := reconcile_indexes_actions [ixTTLnew] [ixTTLold] (by decide) (by decide)
  refine ⟨h₁.1 ixA1 (by simp) (by decide), h₁.2.1 ixB1 (by simp) (by decide), ?_, ?_⟩
  · exact (h₂.2.2.1 ixTTLnew (by simp) ixTTLold (by simp) rfl (by decide)).1
  · exact (h₂.2.2.1 ixTTLnew (by simp) ixTTLold (by simp) rfl (by decide)).2

/-- C3: the configuration-block overrides are applied in the fixed order
aliasing, then required-list, then converters, then validators, and the
processing succeeds exactly when every override references a collected
field name — an override naming an unknown field is a definition-time
failure. -/
theorem process_meta_fixed_order_and_unknown (fields : List (String × MField))
    (meta : MetaBlock) :
    process_meta fields meta =
      (applyAliases fields meta.aliases).bind (fun f₁ =>
        (applyRequired f₁ meta.required).bind (fun f₂ =>
          (applyConverters f₂ meta.converters).bind (fun f₃ =>
            applyValidators f₃ meta.validators))) ∧
    (process_meta fields meta).isOk = metaNamesDefined fields meta :=
  ⟨process_meta_decomp fields meta, process_meta_isOk fields meta⟩

end Monorm
